import Mathlib

/-!
Iris: identifier space of the pastry overlay and the scribe heartbeat ids

A shallow embedding of `proto/pastry/space.go` (the functions `delta`,
`Distance`, the common digit scan, `Resolve`, `idSlice.Less`) and of the
compound heartbeat id and the load reports of `proto/scribe/heart.go` (`monitor`,
`unmonitor`, `ping`, `Dead`, `Beat`), and of the state exchange of
`proto/pastry/proto.go` (`sendState`).

Conventions.
* `*big.Int` values are `Int`; `big.Int.Bit` is `Int.testBit` (two's complement,
  as in Go), `Rsh` is `>>>` on `Int` (rounds towards minus infinity, as in Go),
  `Lsh x n` is `x * 2 ^ n`.
* `config.PastrySpace` and `config.PastryBase` belong to the `config` package; they
  are the parameters `B` and `b` of every definition that reads them.
* Go's `uint` and `int` are machine words of `W` bits (32 or 64); `W` is a parameter
  where the source computes in them.
* A run-time panic of the source is the result `none`.
-/

namespace Pastry

/-! ## The package level constants of `space.go` -/

/-- The Go declaration `modulo = new(big.Int).SetBit(new(big.Int), config.PastrySpace, 1)`:
bit `B` set in zero. -/
def modulo (B : Nat) : Int := 2 ^ B

/-- The Go declaration `posmid = new(big.Int).Rsh(modulo, 1)`. -/
def posmid (B : Nat) : Int := modulo B >>> (1 : Nat)

/-- The Go declaration `negmid = new(big.Int).Mul(posmid, big.NewInt(-1))`. -/
def negmid (B : Nat) : Int := posmid B * (-1)

/-! ## `delta` and `Distance` -/

/-- The Go function `delta(a, b)`: `d := b - a`, then the two-armed `switch`
(`posmid.Cmp(d) < 0` first, `negmid.Cmp(d) > 0` second, no default). -/
def delta (B : Nat) (a b : Int) : Int :=
  let d := b - a
  if posmid B < d then d - modulo B
  else if negmid B > d then d + modulo B
  else d

/-- The Go function `Distance(a, b)`: `Abs(delta(a, b))`. -/
def Distance (B : Nat) (a b : Int) : Int := |delta B a b|

/-! ## `idSlice` -/

/-- The Go type `idSlice`: an origin and the ids to sort around it. -/
structure idSlice where
  origin : Int
  data : List Int

/-- The Go method `idSlice.Len`. -/
def idSlice.Len (p : idSlice) : Nat := p.data.length

/-- The Go method `idSlice.Less(i, j)`; an index outside the slice panics. -/
def idSlice.Less (B : Nat) (p : idSlice) (i j : Nat) : Option Bool :=
  match p.data[i]?, p.data[j]? with
  | some x, some y =>
    let di := delta B p.origin x
    let dj := delta B p.origin y
    some (decide (di < dj))
  | _, _ => none

/-! ## The common digits of two ids -/

/-- The Go method `x.Bit(i)` of `math/big` for an index `i >= 0`: bit `i` of `x`, as `0` or
`1` (a negative index panics; the callers below test the sign before they call). -/
def Bit (x : Int) (i : Nat) : Nat := if x.testBit i then 1 else 0

/-- The first loop of the Go function `prefix`: `for bit := n - 1; bit >= 0; bit--`, stopping
at the first `bit` with `a.Bit(bit) != b.Bit(bit)`; `none` when the loop runs to its end
without a `break`. -/
def firstDiff (a b : Int) : Nat → Option Nat
  | 0 => none
  | n + 1 => if Bit a n ≠ Bit b n then some n else firstDiff a b n

/-- The Go conversion `int(d)` of a `uint` of `W` bits: the same bits, read as a signed
word. -/
def toInt (W : Nat) (d : Nat) : Int :=
  let u := d % 2 ^ W
  if u < 2 ^ (W - 1) then (u : Int) else (u : Int) - 2 ^ W

/-- The second loop of the Go function `prefix`, as the value of the `uint` `d` after the
iterations `bit = 0, ..., k - 1`:
`d |= b.Bit(PastrySpace - (p+1)*PastryBase + bit) << uint(bit)`.
The shift is a shift of a `uint` of `W` bits, so it is taken modulo `2^W`; `Bit` panics
on a negative index. -/
def digitLoop (W B b p : Nat) (y : Int) : Nat → Option Nat
  | 0 => some 0
  | k + 1 =>
    match digitLoop W B b p y k with
    | none => none
    | some d =>
      let idx : Int := (B : Int) - ((p : Int) + 1) * (b : Int) + (k : Int)
      if idx < 0 then none
      else some (d ||| (Bit y idx.toNat <<< k) % 2 ^ W)

/-- The Go function `prefix(a, b)` of `space.go`, with `B = config.PastrySpace`,
`b = config.PastryBase`, and `W` the width of `uint`. `p` starts at `0` and is set to
`(B - 1 - bit) / b` at the first differing bit (an integer division, which panics for
`b = 0`); then the digit loop runs `b` times. -/
def prefixOf (W B b : Nat) (x y : Int) : Option (Int × Int) :=
  let p? : Option Nat :=
    match firstDiff x y B with
    | none => some 0
    | some bit => if b = 0 then none else some ((B - 1 - bit) / b)
  match p? with
  | none => none
  | some p =>
    match digitLoop W B b p y b with
    | none => none
    | some d => some ((p : Int), toInt W d)

/-- Digit `i` of an id, in the words of the specification: an id of `B` bits has
`D = B / b` digits of `b` bits each, most significant first, so digit `i` is the `b` bits
that start at bit `B - (i + 1) * b`. -/
def digit (B b : Nat) (x : Int) (i : Nat) : Int := (x / 2 ^ (B - (i + 1) * b)) % 2 ^ b

/-! ## `Resolve` -/

/-- The Go statement `raw[0] &= ^byte(1 << (7 - uint(i)))` on the first byte `v`; the
shift and the complement are those of a `byte`. The loop that runs it has `i <= 6`, so
`7 - uint(i)` does not wrap around. -/
def clearStep (v i : Nat) : Nat := v &&& (255 ^^^ ((1 <<< (7 - i)) % 256))

/-- The loop `for i := 0; i < k; i++ { raw[0] &= ^byte(1 << (7 - uint(i))) }` of the Go
function `Resolve`, as the slice after the iterations `i = 0, ..., k - 1`; indexing an empty
slice panics. -/
def clearLoop (raw : List Nat) : Nat → Option (List Nat)
  | 0 => some raw
  | k + 1 =>
    match clearLoop raw k with
    | some (v :: rest) => some (clearStep v k :: rest)
    | _ => none

/-- The Go method `big.Int.SetBytes`: the bytes read as a big-endian unsigned integer. -/
def SetBytes (raw : List Nat) : Int :=
  raw.foldl (fun (acc : Int) (v : Nat) => acc * 256 + (v : Int)) 0

/-- The first byte of the slice after `k` iterations of the clearing loop of `Resolve`
(an auxiliary view of `clearLoop`, see `clearLoop_cons`). -/
def clearTop (v : Nat) : Nat → Nat
  | 0 => v
  | k + 1 => clearStep (clearTop v k) k

/-- The Go function `Resolve(id)`, with `B = config.PastrySpace` and `digest` standing for
`config.PastryResolver()` followed by `io.WriteString(h, id)` and `h.Sum(nil)` (a digest is
a list of bytes). Slicing `sum[:(B+7)/8]` panics when the digest is too short (Go checks
the capacity of `sum`; the model checks its length). -/
def Resolve (B : Nat) (digest : String → List (Fin 256)) (id : String) : Option Int :=
  let sum := (digest id).map Fin.val
  if sum.length < (B + 7) / 8 then none
  else
    let raw := sum.take ((B + 7) / 8)
    match clearLoop raw (raw.length * 8 - B) with
    | none => none
    | some r => some (SetBytes r)

/-- A digest for the examples: three bytes, the first of which is the length of the name. -/
def sampleDigest (name : String) : List (Fin 256) :=
  [Fin.ofNat name.length, 0xCD, 0xEF]

/-! ## The state exchange of `proto.go` -/

/-- The Go type `opcode` and its constants, in the order of their `iota`. -/
inductive opcode where
  | opNop
  | opJoin
  | opRepair
  | opActive
  | opPassive
  | opExchage
  | opClose
deriving DecidableEq

/-- A Go map `map[string][]string` or `map[string]*peer` keyed by `id.String()`, as the
partial function it stores. The decimal rendering of an id determines the id, so the key
is the id itself. -/
abbrev IdMap (V : Type) := Int → Option V

/-- The Go assignment `m[k] = v` on a map. -/
def IdMap.set {V : Type} (m : IdMap V) (k : Int) (v : V) : IdMap V :=
  fun x => if x = k then some v else m x

/-- The Go type `state`: the known peers with their network addresses, and the version
counter. -/
structure state where
  Addrs : IdMap (List String)
  Version : Nat

/-- The Go type `header`, without the field `Meta` of the upper layer, which none of the
senders of `proto.go` sets; `State` is a pointer, `nil` is `none`. -/
structure header where
  Op : opcode
  Dest : Int
  State : Option state

/-- Modelled from the spec: the type `peer` is declared outside `proto.go`; these are the
fields of a peer that `sendState` reads, the `nodeId` and `addrs` of the data model's
"Peer". -/
structure peer where
  nodeId : Int
  addrs : List String

/-- Modelled from the spec: the type of `o.routes` is declared outside `proto.go`; these are
the fields that `sendState` reads, the leaf set and the routing rows of the data model's
"Routing table" (a row is a slice of ids, an empty cell is `nil`, here `none`). -/
structure table where
  leaves : List Int
  routes : List (List (Option Int))

/-- Modelled from the spec: the type `Overlay` is declared outside `proto.go`; these are the
fields that `sendState` reads: the local id and addresses, the version counter `time` of
the table, the table, and the registry of live peers. -/
structure Overlay where
  nodeId : Int
  addrs : List String
  time : Nat
  routes : table
  livePeers : IdMap peer

/-- The body of both loops of the Go method `sendState` for one id:
`if node, ok := o.livePeers[sid]; ok { s.Addrs[sid] = node.addrs }`. -/
def addLive (o : Overlay) (m : IdMap (List String)) (id : Int) : IdMap (List String) :=
  match o.livePeers id with
  | some node => m.set id node.addrs
  | none => m

/-- The body of the second loop of the Go method `sendState` for one cell of the row: a
`nil` cell is skipped. -/
def addCell (o : Overlay) (m : IdMap (List String)) (cell : Option Int) :
    IdMap (List String) :=
  match cell with
  | some id => addLive o m id
  | none => m

/-- The Go method `Overlay.sendState(dest)`, as the header that it hands to `sendPacket`.
The map starts with the local id mapped to the local addresses; then come the loop over the
leaves and the loop over the row `o.routes.routes[idx]`, `idx` being the length returned
by `prefix(o.nodeId, dest.nodeId)`; an index outside the table panics. -/
def sendState (W B b : Nat) (o : Overlay) (dest : peer) : Option header :=
  let s0 : IdMap (List String) := IdMap.set (fun _ => none) o.nodeId o.addrs
  let s1 := o.routes.leaves.foldl (addLive o) s0
  match prefixOf W B b o.nodeId dest.nodeId with
  | none => none
  | some (idx, _) =>
    if idx < 0 then none
    else
      match o.routes.routes[idx.toNat]? with
      | none => none
      | some row =>
        let s2 := row.foldl (addCell o) s1
        some ⟨opcode.opExchage, dest.nodeId, some ⟨s2, o.time⟩⟩

/-- An overlay state for the examples, with `B = 8` and `b = 4`: the local id `0x10` with
the leaves `0x80` and `0xF0`, two routing rows of sixteen cells, and the live peers `0x80`
and `0xF0`. -/
def sampleOverlay : Overlay where
  nodeId := 0x10
  addrs := ["10.0.0.1:55555"]
  time := 3
  routes := ⟨[0x80, 0xF0],
    [(List.replicate 16 none).set 8 (some 0x80), (List.replicate 16 none).set 2 (some 0x12)]⟩
  livePeers := fun k =>
    if k = 0x80 then some ⟨0x80, ["10.0.0.2:55555"]⟩
    else if k = 0xF0 then some ⟨0xF0, ["10.0.0.3:55555"]⟩
    else none

end Pastry

/-! ## The compound heartbeat ids of `scribe/heart.go` -/

namespace Scribe

/-- The Go method `big.Int.Lsh`: `x << n`. -/
def Lsh (x : Int) (n : Nat) : Int := x * 2 ^ n

/-- The Go method `big.Int.Rsh`: `x >> n`, rounding towards minus infinity. -/
def Rsh (x : Int) (n : Nat) : Int := x >>> n

/-- The id that the Go method `Overlay.monitor(topic, node)` hands to `heart.Monitor`:
`Add(Lsh(topic, uint(config.PastrySpace)), node)`. -/
def monitor (B : Nat) (topic node : Int) : Int := Lsh topic B + node

/-- The id that the Go method `Overlay.unmonitor(topic, node)` hands to `heart.Unmonitor`. -/
def unmonitor (B : Nat) (topic node : Int) : Int := Lsh topic B + node

/-- The id that the Go method `Overlay.ping(topic, node)` hands to `heart.Ping`. -/
def ping (B : Nat) (topic node : Int) : Int := Lsh topic B + node

/-- The first two statements of the Go method `Overlay.Dead(id)`: the id split into its
topic and node parts. -/
def Dead (B : Nat) (id : Int) : Int × Int :=
  let topic := Rsh id B
  let node := id - Lsh topic B
  (topic, node)

/-! ## The load reports of `Overlay.Beat` -/

/-- The Go type `report`: the topics shared between two carrier nodes and the capacity
reported for each of them. -/
structure report where
  Tops : List Int
  Caps : List Int
deriving DecidableEq

/-- Modelled from the spec: the type `topic.Topic` is declared in the package
`proto/scribe/topic`, outside `heart.go`; this is what `Overlay.Beat` reads from one topic:
`top.Self()`, the two results `ids, caps` of `top.GenerateReports()`, and `top.Parent()`
(`nil` is `none`). -/
structure Topic where
  self : Int
  ids : List Int
  caps : List Int
  parent : Option Int

/-- The Go map `reports` of `Overlay.Beat`, `map[string]*report` keyed by `id.String()`. The
decimal rendering of an id determines the id, so the key is the id itself; the entries are
kept in the order of their insertion, with one entry per key. -/
abbrev Reports := List (Int × report)

/-- The body of the inner loop of `Overlay.Beat` for one `id` of one topic: look the report of
`id` up, insert an empty one if there is none, then append `top.Self()` to its `Tops` and
`caps[i]` to its `Caps`. -/
def addReport : Reports → Int → Int → Int → Reports
  | [], id, self, cap => [(id, ⟨[self], [cap]⟩)]
  | (k, r) :: rest, id, self, cap =>
    if k = id then (k, ⟨r.Tops ++ [self], r.Caps ++ [cap]⟩) :: rest
    else (k, r) :: addReport rest id self cap

/-- The inner loop of `Overlay.Beat`, `for i, id := range ids`, with the part of `caps` from
index `i` on as second list: `caps[i]` panics when `caps` is shorter than `ids`. -/
def rangeIds (self : Int) : List Int → List Int → Reports → Option Reports
  | [], _, reps => some reps
  | _ :: _, [], _ => none
  | id :: ids, cap :: caps, reps => rangeIds self ids caps (addReport reps id self cap)

/-- The outer loop of `Overlay.Beat`, `for _, top := range o.topics`, over the topics in
the order in which the range visits them. -/
def collect : List Topic → Reports → Option Reports
  | [], reps => some reps
  | top :: tops, reps =>
    match rangeIds top.self top.ids top.caps reps with
    | none => none
    | some reps2 => collect tops reps2

/-- What one call of `Overlay.Beat` sends: one `sendReport(id, rep)` for every entry of the
assembled map, and one `sendSubscribe(top.Self())` for every topic without a parent. -/
structure Beats where
  reports : Reports
  subscribes : List Int

/-- The Go method `Overlay.Beat`, on the topics of `o.topics` in the order of the range. -/
def Beat (topics : List Topic) : Option Beats :=
  match collect topics [] with
  | none => none
  | some reps =>
    some ⟨reps, (topics.filter (fun top => top.parent.isNone)).map (fun top => top.self)⟩

/-- In the words of the claim: the pairs `(topic.Self(), caps[i])` of one topic for the
indices `i` at which it lists the destination `dest`. -/
def pairsOf (self : Int) : List Int → List Int → Int → List (Int × Int)
  | id :: ids, cap :: caps, dest =>
    if id = dest then (self, cap) :: pairsOf self ids caps dest else pairsOf self ids caps dest
  | _, _, _ => []

/-- In the words of the claim: the pairs `(topic.Self(), caps[i])` of all the topics that
list the destination `dest` at an index `i`. -/
def pairsFor : List Topic → Int → List (Int × Int)
  | [], _ => []
  | top :: tops, dest => pairsOf top.self top.ids top.caps dest ++ pairsFor tops dest

/-- The invariant of the two loops of `Overlay.Beat`: the keys of the map are distinct, they
are the destinations with a pair so far, and each report holds the pairs of its key. -/
def ReportsInv (reps : Reports) (acc : Int → List (Int × Int)) : Prop :=
  (reps.map Prod.fst).Nodup ∧
    (∀ k, k ∈ reps.map Prod.fst ↔ acc k ≠ []) ∧
    ∀ k r, (k, r) ∈ reps → r.Tops = (acc k).map Prod.fst ∧ r.Caps = (acc k).map Prod.snd

end Scribe

namespace Pastry

/-! ## Basic facts about the constants -/

theorem modulo_pos (B : Nat) : 0 < modulo B := by
  unfold modulo
  positivity

theorem posmid_succ (k : Nat) : posmid (k + 1) = 2 ^ k := by
  unfold posmid modulo
  rw [Int.shiftRight_eq_div_pow]
  norm_num [pow_succ]

theorem posmid_zero : posmid 0 = 0 := by
  decide

theorem modulo_succ (k : Nat) : modulo (k + 1) = 2 * 2 ^ k := by
  unfold modulo
  ring

/-- For a positive width, `posmid` is `2^(B-1)` and `modulo` is twice that. -/
theorem posmid_eq (B : Nat) (hB : 1 ≤ B) :
    posmid B = 2 ^ (B - 1) ∧ modulo B = 2 * 2 ^ (B - 1) := by
  obtain ⟨k, rfl⟩ : ∃ k, B = k + 1 := ⟨B - 1, by omega⟩
  simp [posmid_succ, modulo_succ]

/-- The shape of `delta` with the constants made explicit (`B = k + 1`). -/
theorem delta_succ (k : Nat) (a b : Int) :
    delta (k + 1) a b =
      if (2 : Int) ^ k < b - a then b - a - 2 * 2 ^ k
      else if -(2 : Int) ^ k > b - a then b - a + 2 * 2 ^ k
      else b - a := by
  simp only [delta, negmid, posmid_succ, modulo_succ, mul_neg, mul_one]

theorem delta_zero (a b : Int) :
    delta 0 a b = if 0 < b - a then b - a - 1 else if 0 > b - a then b - a + 1 else b - a := by
  simp only [delta, negmid, posmid_zero, modulo, pow_zero, zero_mul]

/-! ## Claims C1 to C4: `delta` -/

/-- C1. For ids `a`, `b` in `[0, 2^B)`, `delta(a, b) = -delta(b, a)` as integers, and
`Distance(a, b) = Distance(b, a)`. -/
theorem delta_antisymm (B : Nat) (a b : Int)
    (_ha : 0 ≤ a ∧ a < 2 ^ B) (_hb : 0 ≤ b ∧ b < 2 ^ B) :
    delta B a b = -delta B b a ∧ Distance B a b = Distance B b a := by
  have h : delta B a b = -delta B b a := by
    cases B with
    | zero =>
      rw [delta_zero, delta_zero]
      split_ifs <;> omega
    | succ k =>
      rw [delta_succ, delta_succ]
      have hp : (0 : Int) < 2 ^ k := by positivity
      generalize (2 : Int) ^ k = m at hp ⊢
      split_ifs <;> omega
  refine ⟨h, ?_⟩
  unfold Distance
  rw [h, abs_neg]

theorem delta_antisymm_witness :
    ((0 : Int) ≤ 16 ∧ (16 : Int) < 2 ^ 8) ∧ ((0 : Int) ≤ 240 ∧ (240 : Int) < 2 ^ 8) ∧
      delta 8 16 240 = -delta 8 240 16 ∧ Distance 8 16 240 = Distance 8 240 16 :=
  ⟨by decide, by decide, delta_antisymm 8 16 240 (by decide) (by decide)⟩

/-- C2. For ids `a`, `b` in `[0, 2^B)`, `delta(a, b)` is `b - a` with `2^B` added or
subtracted at most once: it is one of `b - a`, `b - a - 2^B`, `b - a + 2^B`, and so it is
congruent to `b - a` modulo `2^B`. -/
theorem delta_congr (B : Nat) (a b : Int)
    (_ha : 0 ≤ a ∧ a < 2 ^ B) (_hb : 0 ≤ b ∧ b < 2 ^ B) :
    (delta B a b = b - a ∨ delta B a b = b - a - 2 ^ B ∨ delta B a b = b - a + 2 ^ B) ∧
      delta B a b ≡ b - a [ZMOD 2 ^ B] := by
  have h : delta B a b = b - a ∨ delta B a b = b - a - 2 ^ B ∨
      delta B a b = b - a + 2 ^ B := by
    simp only [delta, modulo]
    split_ifs
    · exact Or.inr (Or.inl rfl)
    · exact Or.inr (Or.inr rfl)
    · exact Or.inl rfl
  refine ⟨h, ?_⟩
  rcases h with h | h | h
  · rw [h]
  · rw [h]
    show (b - a - 2 ^ B) % 2 ^ B = (b - a) % 2 ^ B
    rw [Int.sub_emod, Int.emod_self, sub_zero, Int.emod_emod_of_dvd _ (dvd_refl _)]
  · rw [h]
    show (b - a + 2 ^ B) % 2 ^ B = (b - a) % 2 ^ B
    exact Int.add_emod_self

theorem delta_congr_witness :
    ((0 : Int) ≤ 16 ∧ (16 : Int) < 2 ^ 8) ∧ ((0 : Int) ≤ 240 ∧ (240 : Int) < 2 ^ 8) ∧
      (delta 8 16 240 = 240 - 16 ∨ delta 8 16 240 = 240 - 16 - 2 ^ 8 ∨
        delta 8 16 240 = 240 - 16 + 2 ^ 8) ∧
      delta 8 16 240 ≡ 240 - 16 [ZMOD 2 ^ 8] :=
  ⟨by decide, by decide, delta_congr 8 16 240 (by decide) (by decide)⟩

/-- C3, as stated, fails: the upper end of the range is attained. With `B = 8` the ids
`0` and `128` are in `[0, 2^8)` and `delta(0, 128) = 128 = 2^(B-1)`, which is not below
`2^(B-1)`. -/
theorem delta_half_open_fails :
    ¬ ∀ (B : Nat) (a b : Int), 0 ≤ a ∧ a < 2 ^ B → 0 ≤ b ∧ b < 2 ^ B →
      -(2 : Int) ^ (B - 1) ≤ delta B a b ∧ delta B a b < 2 ^ (B - 1) := by
  intro h
  have h1 := (h 8 0 128 (by decide) (by decide)).2
  revert h1
  decide

/-- C3, amended. For ids `a`, `b` in `[0, 2^B)`, `delta(a, b)` lies in the closed range
`[-2^(B-1), 2^(B-1)]`; the upper end `2^(B-1)` is taken only when `b - a = 2^(B-1)`, and
the lower end `-2^(B-1)` only when `b - a = -2^(B-1)`. -/
theorem delta_range (B : Nat) (a b : Int)
    (ha : 0 ≤ a ∧ a < 2 ^ B) (hb : 0 ≤ b ∧ b < 2 ^ B) :
    (-(2 : Int) ^ (B - 1) ≤ delta B a b ∧ delta B a b ≤ 2 ^ (B - 1)) ∧
      (delta B a b = 2 ^ (B - 1) → b - a = 2 ^ (B - 1)) ∧
      (delta B a b = -(2 : Int) ^ (B - 1) → b - a = -(2 : Int) ^ (B - 1)) := by
  cases B with
  | zero =>
    rw [delta_zero]
    simp only [pow_zero] at ha hb ⊢
    split_ifs <;> omega
  | succ k =>
    rw [delta_succ]
    have hp : (0 : Int) < 2 ^ k := by positivity
    have hm : (2 : Int) ^ (k + 1) = 2 * 2 ^ k := by ring
    rw [hm] at ha hb
    simp only [Nat.add_sub_cancel]
    generalize (2 : Int) ^ k = m at hp ha hb ⊢
    split_ifs <;> omega

theorem delta_range_witness :
    ((0 : Int) ≤ 0 ∧ (0 : Int) < 2 ^ 8) ∧ ((0 : Int) ≤ 128 ∧ (128 : Int) < 2 ^ 8) ∧
      ((-(2 : Int) ^ (8 - 1) ≤ delta 8 0 128 ∧ delta 8 0 128 ≤ 2 ^ (8 - 1)) ∧
      (delta 8 0 128 = 2 ^ (8 - 1) → (128 : Int) - 0 = 2 ^ (8 - 1)) ∧
      (delta 8 0 128 = -(2 : Int) ^ (8 - 1) → (128 : Int) - 0 = -(2 : Int) ^ (8 - 1))) :=
  ⟨by decide, by decide, delta_range 8 0 128 (by decide) (by decide)⟩

/-- C4, as stated, fails when the first id is the larger one. With `B = 8` the ids `128`
and `0` are in `[0, 2^8)` and antipodal (`(0 - 128) mod 2^8 = 128 = 2^(B-1)`), and
`delta(128, 0) = -128`, not `+128`. -/
theorem delta_antipodal_positive_fails :
    ¬ ∀ (B : Nat) (a b : Int), 0 ≤ a ∧ a < 2 ^ B → 0 ≤ b ∧ b < 2 ^ B →
      (b - a) % 2 ^ B = 2 ^ (B - 1) → delta B a b = 2 ^ (B - 1) := by
  intro h
  have h1 := h 8 128 0 (by decide) (by decide) (by decide)
  revert h1
  decide

/-- C4, amended. For exactly antipodal ids `a`, `b` in `[0, 2^B)`
(`(b - a) mod 2^B = 2^(B-1)`), the sign of `delta(a, b)` follows the order of the two ids:
`delta(a, b) = +2^(B-1)` when `a < b` and `delta(a, b) = -2^(B-1)` when `b < a`; the two
ids differ, and `Distance(a, b) = 2^(B-1)` either way. -/
theorem delta_antipodal (B : Nat) (a b : Int)
    (ha : 0 ≤ a ∧ a < 2 ^ B) (hb : 0 ≤ b ∧ b < 2 ^ B)
    (hab : (b - a) % 2 ^ B = 2 ^ (B - 1)) :
    a ≠ b ∧ (a < b → delta B a b = 2 ^ (B - 1)) ∧
      (b < a → delta B a b = -(2 : Int) ^ (B - 1)) ∧ Distance B a b = 2 ^ (B - 1) := by
  obtain rfl | ⟨k, rfl⟩ : B = 0 ∨ ∃ k, B = k + 1 := by
    cases B with
    | zero => exact Or.inl rfl
    | succ k => exact Or.inr ⟨k, rfl⟩
  · simp at hab
  unfold Distance
  rw [delta_succ]
  have hp : (0 : Int) < 2 ^ k := by positivity
  have hm : (2 : Int) ^ (k + 1) = 2 * 2 ^ k := by ring
  rw [hm] at ha hb hab
  simp only [Nat.add_sub_cancel] at hab ⊢
  generalize (2 : Int) ^ k = m at hp ha hb hab ⊢
  have hd : b - a = m ∨ b - a = -m := by
    rcases le_or_lt a b with hle | hlt
    · left
      rw [Int.emod_eq_of_lt (by omega) (by omega)] at hab
      exact hab
    · right
      have : (b - a) % (2 * m) = b - a + 2 * m := by
        rw [← Int.add_emod_self, Int.emod_eq_of_lt (by omega) (by omega)]
      omega
  rcases hd with hd | hd
  · rw [hd, abs_of_pos (by split_ifs <;> omega)]
    split_ifs <;> omega
  · rw [hd]
    have : ¬ (m < -m) := by omega
    have h2 : ¬ (-m > -m) := by omega
    simp only [this, h2, if_false, abs_neg, abs_of_pos hp]
    exact ⟨by omega, fun h => by omega, fun _ => trivial, trivial⟩

theorem delta_antipodal_witness :
    ((0 : Int) ≤ 128 ∧ (128 : Int) < 2 ^ 8) ∧ ((0 : Int) ≤ 0 ∧ (0 : Int) < 2 ^ 8) ∧
      ((0 : Int) - 128) % 2 ^ 8 = 2 ^ (8 - 1) ∧
      ((128 : Int) ≠ 0 ∧ ((128 : Int) < 0 → delta 8 128 0 = 2 ^ (8 - 1)) ∧
      ((0 : Int) < 128 → delta 8 128 0 = -(2 : Int) ^ (8 - 1)) ∧
      Distance 8 128 0 = 2 ^ (8 - 1)) :=
  ⟨by decide, by decide, by decide,
    delta_antipodal 8 128 0 (by decide) (by decide) (by decide)⟩

/-! ## The digit scan: auxiliary facts -/

theorem Bit_natCast (n i : Nat) : Bit (n : Int) i = if n.testBit i then 1 else 0 := rfl

theorem Bit_eq_iff (n m i : Nat) :
    Bit (n : Int) i = Bit (m : Int) i ↔ n.testBit i = m.testBit i := by
  simp only [Bit_natCast]
  cases n.testBit i <;> cases m.testBit i <;> simp

/-- When the first loop ends without a `break`, the two ids agree on all scanned bits. -/
theorem firstDiff_none (a b : Int) (n : Nat) (h : firstDiff a b n = none) :
    ∀ j, j < n → Bit a j = Bit b j := by
  induction n with
  | zero => intro j hj; omega
  | succ k ih =>
    intro j hj
    unfold firstDiff at h
    by_cases hk : Bit a k ≠ Bit b k
    · simp [hk] at h
    · rw [if_neg hk] at h
      rcases Nat.lt_succ_iff_lt_or_eq.mp hj with hlt | rfl
      · exact ih h j hlt
      · exact not_not.mp hk

/-- When the first loop breaks at `bit`, that bit differs and all higher scanned bits
agree. -/
theorem firstDiff_some (a b : Int) (n bit : Nat) (h : firstDiff a b n = some bit) :
    bit < n ∧ Bit a bit ≠ Bit b bit ∧ ∀ j, bit < j → j < n → Bit a j = Bit b j := by
  induction n with
  | zero => simp [firstDiff] at h
  | succ k ih =>
    unfold firstDiff at h
    by_cases hk : Bit a k ≠ Bit b k
    · rw [if_pos hk] at h
      obtain rfl : k = bit := Option.some.inj h
      exact ⟨Nat.lt_succ_self _, hk, fun j h1 h2 => by omega⟩
    · rw [if_neg hk] at h
      obtain ⟨h1, h2, h3⟩ := ih h
      refine ⟨by omega, h2, fun j hj1 hj2 => ?_⟩
      rcases Nat.lt_succ_iff_lt_or_eq.mp hj2 with hlt | rfl
      · exact h3 j hj1 hlt
      · exact not_not.mp hk

/-- Two naturals below `2^B` that agree on the bits below `B` are equal. -/
theorem eq_of_low_bits (B n m : Nat) (hn : n < 2 ^ B) (hm : m < 2 ^ B)
    (h : ∀ j, j < B → n.testBit j = m.testBit j) : n = m := by
  apply Nat.eq_of_testBit_eq
  intro i
  by_cases hi : i < B
  · exact h i hi
  · have hle : 2 ^ B ≤ 2 ^ i := Nat.pow_le_pow_right (by norm_num) (by omega)
    rw [Nat.testBit_lt_two_pow (lt_of_lt_of_le hn hle),
      Nat.testBit_lt_two_pow (lt_of_lt_of_le hm hle)]

/-- Bit `j` of the field of `w` bits that starts at bit `s`. -/
theorem testBit_field (n s w j : Nat) :
    (n / 2 ^ s % 2 ^ w).testBit j = (decide (j < w) && n.testBit (s + j)) := by
  rw [Nat.testBit_mod_two_pow, ← Nat.shiftRight_eq_div_pow, Nat.testBit_shiftRight]

/-- One iteration of the digit loop appends bit `k` of the field. -/
theorem field_step (z k W : Nat) (hk : k < W) :
    (z % 2 ^ k) ||| ((if z.testBit k then 1 else 0) <<< k) % 2 ^ W = z % 2 ^ (k + 1) := by
  have hlt : 2 ^ k < 2 ^ W := Nat.pow_lt_pow_right (by norm_num) hk
  apply Nat.eq_of_testBit_eq
  intro i
  by_cases hz : z.testBit k
  · rw [if_pos hz, Nat.shiftLeft_eq, one_mul, Nat.mod_eq_of_lt hlt, Nat.testBit_lor,
      Nat.testBit_mod_two_pow, Nat.testBit_mod_two_pow, Nat.testBit_two_pow]
    rcases Nat.lt_trichotomy i k with h | h | h
    · have h1 : ¬ k = i := by omega
      have h2 : i < k + 1 := by omega
      simp [h, h1, h2]
    · subst h
      simp [hz]
    · have h1 : ¬ k = i := by omega
      have h2 : ¬ i < k + 1 := by omega
      have h3 : ¬ i < k := by omega
      simp [h1, h2, h3]
  · rw [if_neg hz, Nat.zero_shiftLeft, Nat.zero_mod, Nat.testBit_lor,
      Nat.testBit_mod_two_pow, Nat.testBit_mod_two_pow, Nat.zero_testBit, Bool.or_false]
    rcases Nat.lt_trichotomy i k with h | h | h
    · have h2 : i < k + 1 := by omega
      simp [h, h2]
    · subst h
      simp [hz]
    · have h2 : ¬ i < k + 1 := by omega
      have h3 : ¬ i < k := by omega
      simp [h2, h3]

/-- The digit loop reads the field of `k` bits that starts at bit `B - (p+1)*b`, as long as
that start is not negative and the field fits a machine word. -/
theorem digitLoop_eq (W B b p m k : Nat) (hp : (p + 1) * b ≤ B) (hk : k ≤ W) :
    digitLoop W B b p (m : Int) k = some (m / 2 ^ (B - (p + 1) * b) % 2 ^ k) := by
  induction k with
  | zero => simp [digitLoop, Nat.mod_one]
  | succ k ih =>
    unfold digitLoop
    rw [ih (by omega)]
    have hidx : (B : Int) - ((p : Int) + 1) * (b : Int) + (k : Int)
        = ((B - (p + 1) * b + k : Nat) : Int) := by
      push_cast [Nat.cast_sub hp]
      ring
    simp only [hidx]
    rw [if_neg (by omega), Int.toNat_natCast, Bit_natCast]
    have hbit : m.testBit (B - (p + 1) * b + k) = (m / 2 ^ (B - (p + 1) * b)).testBit k := by
      rw [← Nat.shiftRight_eq_div_pow, Nat.testBit_shiftRight]
    rw [hbit, field_step _ _ _ (by omega)]

theorem toInt_of_lt (W d : Nat) (h : d < 2 ^ (W - 1)) : toInt W d = (d : Int) := by
  have hle : 2 ^ (W - 1) ≤ 2 ^ W := Nat.pow_le_pow_right (by norm_num) (Nat.sub_le _ _)
  unfold toInt
  simp only [Nat.mod_eq_of_lt (lt_of_lt_of_le h hle), if_pos h]

theorem digit_natCast (B b n i : Nat) :
    digit B b (n : Int) i = ((n / 2 ^ (B - (i + 1) * b) % 2 ^ b : Nat) : Int) := by
  unfold digit
  push_cast
  rfl

/-- What the Go function returns for two different ids, in terms of the first differing
bit: the digit loop reads the field of `b` bits at `B - (p+1)*b`. -/
theorem prefixOf_natCast (W B b n m bit : Nat) (hb : 1 ≤ b) (hW : b < W)
    (hfd : firstDiff (n : Int) (m : Int) B = some bit)
    (hp : ((B - 1 - bit) / b + 1) * b ≤ B) :
    prefixOf W B b (n : Int) (m : Int) =
      some ((((B - 1 - bit) / b : Nat) : Int),
        ((m / 2 ^ (B - ((B - 1 - bit) / b + 1) * b) % 2 ^ b : Nat) : Int)) := by
  have hb0 : b ≠ 0 := by omega
  simp only [prefixOf, hfd, if_neg hb0]
  rw [digitLoop_eq W B b _ m b hp (by omega)]
  have hlt : m / 2 ^ (B - ((B - 1 - bit) / b + 1) * b) % 2 ^ b < 2 ^ (W - 1) :=
    lt_of_lt_of_le (Nat.mod_lt _ (by positivity))
      (Nat.pow_le_pow_right (by norm_num) (by omega))
  simp only [toInt_of_lt W _ hlt]

/-! ## Claim C5: the digit scan on two different ids -/

/-- C5, amended. For distinct ids `x != y` in `[0, 2^B)`, a digit width `b >= 1` that
divides `B` and is below the width `W` of a machine word, and `D = B / b`, the Go function
`prefix(x, y)` returns `(p, d)` where `0 <= p < D`, digits `0..p-1` of `x` and `y` are equal,
digit `p` differs, and `d` is digit `p` of the second argument (`0 <= d < 2^b`, and `d` is
not digit `p` of `x`). -/
theorem prefixOf_spec (W B b : Nat) (x y : Int) (hb : 1 ≤ b) (hdvd : b ∣ B) (hW : b < W)
    (hx : 0 ≤ x ∧ x < 2 ^ B) (hy : 0 ≤ y ∧ y < 2 ^ B) (hne : x ≠ y) :
    ∃ p d : Nat, prefixOf W B b x y = some ((p : Int), (d : Int)) ∧ p < B / b ∧
      (∀ i, i < p → digit B b x i = digit B b y i) ∧
      digit B b x p ≠ digit B b y p ∧
      (d : Int) = digit B b y p ∧ d < 2 ^ b ∧ (d : Int) ≠ digit B b x p := by
  obtain ⟨hx0, hxB⟩ := hx
  obtain ⟨hy0, hyB⟩ := hy
  lift x to Nat using hx0
  lift y to Nat using hy0
  have hxB' : x < 2 ^ B := by exact_mod_cast hxB
  have hyB' : y < 2 ^ B := by exact_mod_cast hyB
  have hne' : x ≠ y := fun h => hne (by rw [h])
  obtain ⟨D, rfl⟩ := hdvd
  have hbpos : 0 < b := hb
  cases hfd : firstDiff (x : Int) (y : Int) (b * D) with
  | none =>
    exfalso
    apply hne'
    apply eq_of_low_bits (b * D) x y hxB' hyB'
    intro j hj
    exact (Bit_eq_iff x y j).mp (firstDiff_none _ _ _ hfd j hj)
  | some bit =>
    obtain ⟨hbit, hdiff, hhigh⟩ := firstDiff_some _ _ _ _ hfd
    -- the digit that holds the first differing bit
    have hq1 : (b * D - 1 - bit) / b * b ≤ b * D - 1 - bit := Nat.div_mul_le_self _ _
    have hq2 : b * D - 1 - bit < ((b * D - 1 - bit) / b + 1) * b :=
      (Nat.div_lt_iff_lt_mul hbpos).mp (Nat.lt_succ_self _)
    have hq3 : (b * D - 1 - bit) / b < D := by
      rw [Nat.div_lt_iff_lt_mul hbpos, Nat.mul_comm D b]
      omega
    generalize hpdef : (b * D - 1 - bit) / b = p at hq1 hq2 hq3
    have hq4 : (p + 1) * b ≤ b * D := by
      rw [Nat.mul_comm b D]
      exact Nat.mul_le_mul_right b hq3
    have hq5 : (p + 1) * b = p * b + b := by ring
    have hret := prefixOf_natCast W (b * D) b x y bit hb hW hfd (by rw [hpdef]; exact hq4)
    rw [hpdef] at hret
    have hdig : digit (b * D) b (x : Int) p ≠ digit (b * D) b (y : Int) p := by
      rw [digit_natCast, digit_natCast]
      intro h
      have h' := congrArg (fun z : Nat => z.testBit (bit - (b * D - (p + 1) * b)))
        (Nat.cast_injective (R := Int) h)
      simp only [testBit_field] at h'
      have e1 : b * D - (p + 1) * b + (bit - (b * D - (p + 1) * b)) = bit := by omega
      have e2 : bit - (b * D - (p + 1) * b) < b := by omega
      rw [e1] at h'
      simp only [e2, decide_True, Bool.true_and] at h'
      exact hdiff ((Bit_eq_iff x y bit).mpr h')
    refine ⟨p, y / 2 ^ (b * D - (p + 1) * b) % 2 ^ b, hret, ?_, ?_, hdig, ?_, ?_, ?_⟩
    · rw [Nat.mul_div_cancel_left D hbpos]
      exact hq3
    · intro i hi
      rw [digit_natCast, digit_natCast]
      congr 1
      apply Nat.eq_of_testBit_eq
      intro j
      rw [testBit_field, testBit_field]
      by_cases hj : j < b
      · have hi1 : (i + 1) * b ≤ p * b := Nat.mul_le_mul_right b hi
        have hi2 : (i + 1) * b = i * b + b := by ring
        have := (Bit_eq_iff x y (b * D - (i + 1) * b + j)).mp
          (hhigh _ (by omega) (by omega))
        rw [this]
      · simp [hj]
    · rw [digit_natCast]
    · exact Nat.mod_lt _ (by positivity)
    · rw [← digit_natCast]
      exact fun h => hdig h.symm

theorem prefixOf_spec_witness :
    1 ≤ 4 ∧ 4 ∣ 8 ∧ 4 < 64 ∧ ((0 : Int) ≤ 0x35 ∧ (0x35 : Int) < 2 ^ 8) ∧
      ((0 : Int) ≤ 0x3a ∧ (0x3a : Int) < 2 ^ 8) ∧ (0x35 : Int) ≠ 0x3a ∧
      ∃ p d : Nat, prefixOf 64 8 4 0x35 0x3a = some ((p : Int), (d : Int)) ∧ p < 8 / 4 ∧
        (∀ i, i < p → digit 8 4 0x35 i = digit 8 4 0x3a i) ∧
        digit 8 4 0x35 p ≠ digit 8 4 0x3a p ∧
        (d : Int) = digit 8 4 0x3a p ∧ d < 2 ^ 4 ∧ (d : Int) ≠ digit 8 4 0x35 p :=
  ⟨by decide, by decide, by decide, by decide, by decide, by decide,
    prefixOf_spec 64 8 4 0x35 0x3a (by decide) (by decide) (by decide) (by decide)
      (by decide) (by decide)⟩

/-- C5, as stated for every digit width, fails once a digit no longer fits a machine word:
with `B = b = 64` on a machine with words of 64 bits, the ids `0` and `2^63` are distinct
ids in `[0, 2^64)` with the single digit `2^63` in the second one, and the Go function
returns `d = -2^63`, which is not in `[0, 2^b)`. -/
theorem prefixOf_wide_digit_fails :
    ¬ ∀ (B b : Nat) (x y : Int), 1 ≤ b → b ∣ B → (0 ≤ x ∧ x < 2 ^ B) → (0 ≤ y ∧ y < 2 ^ B) →
      x ≠ y → ∃ p d : Nat, prefixOf 64 B b x y = some ((p : Int), (d : Int)) ∧ p < B / b ∧
        (d : Int) = digit B b y p := by
  intro h
  obtain ⟨p, d, h1, -, -⟩ := h 64 64 0 (2 ^ 63) (by decide) (by decide) (by decide)
    (by decide) (by decide)
  have h2 : prefixOf 64 64 64 0 (2 ^ 63) = some (0, -2 ^ 63) := by decide
  rw [h2] at h1
  have h3 := congrArg Prod.snd (Option.some.inj h1)
  simp only at h3
  omega

/-! ## Claim C6: the digit scan on an id and itself -/

theorem firstDiff_self (x : Int) (n : Nat) : firstDiff x x n = none := by
  induction n with
  | zero => rfl
  | succ k ih => simp [firstDiff, ih]

/-- What the Go function returns on an id and itself (for `1 <= b <= B`, `b` below the word
width): the first loop never breaks, `p` keeps its initial value `0`, and the digit loop
reads digit `0` of the id. -/
theorem prefixOf_self (W B b : Nat) (x : Int) (hbB : b ≤ B) (hW : b < W)
    (hx : 0 ≤ x ∧ x < 2 ^ B) :
    prefixOf W B b x x = some (0, digit B b x 0) := by
  obtain ⟨hx0, -⟩ := hx
  lift x to Nat using hx0
  simp only [prefixOf, firstDiff_self]
  rw [digitLoop_eq W B b 0 x b (by omega) (by omega)]
  have hlt : x / 2 ^ (B - (0 + 1) * b) % 2 ^ b < 2 ^ (W - 1) :=
    lt_of_lt_of_le (Nat.mod_lt _ (by positivity))
      (Nat.pow_le_pow_right (by norm_num) (by omega))
  simp only [toInt_of_lt W _ hlt, digit_natCast, Nat.cast_zero]

/-- C6, evaluated on the code. With `B = 8`, `b = 4` (so `D = 2`) and the id `0x35`, the Go
function returns `(0, 3)` on the pair `(0x35, 0x35)`: the length `0` and the first digit of
the id, not `(D, 0) = (2, 0)`. -/
theorem prefixOf_self_eval :
    prefixOf 64 8 4 0x35 0x35 = some (0, 3) ∧
      prefixOf 64 8 4 0x35 0x35 ≠ some ((((8 / 4 : Nat) : Int)), 0) := by
  decide

/-! ## `Resolve`: auxiliary facts -/

set_option maxRecDepth 100000 in
/-- Clearing the `k <= 7` highest bits of a byte leaves its `8 - k` low bits. -/
theorem clearTop_fin :
    ∀ (k : Fin 8) (v : Fin 256), clearTop v.val k.val = v.val % 2 ^ (8 - k.val) := by
  decide

theorem clearTop_eq (v k : Nat) (hv : v < 256) (hk : k < 8) :
    clearTop v k = v % 2 ^ (8 - k) :=
  clearTop_fin ⟨k, hk⟩ ⟨v, hv⟩

theorem clearLoop_cons (v : Nat) (rest : List Nat) (k : Nat) :
    clearLoop (v :: rest) k = some (clearTop v k :: rest) := by
  induction k with
  | zero => rfl
  | succ k ih => simp only [clearLoop, ih, clearTop]

theorem SetBytes_foldl (raw : List Nat) (acc : Int) :
    raw.foldl (fun (acc : Int) (v : Nat) => acc * 256 + (v : Int)) acc
      = acc * 256 ^ raw.length + SetBytes raw := by
  induction raw generalizing acc with
  | nil => simp [SetBytes]
  | cons v rest ih =>
    simp only [SetBytes, List.foldl_cons, List.length_cons]
    rw [ih, ih (0 * 256 + (v : Int))]
    ring

theorem SetBytes_cons (v : Nat) (rest : List Nat) :
    SetBytes (v :: rest) = (v : Int) * 256 ^ rest.length + SetBytes rest := by
  have h := SetBytes_foldl rest (0 * 256 + (v : Int))
  simp only [SetBytes, List.foldl_cons] at h ⊢
  rw [h]
  ring

theorem SetBytes_bounds (raw : List Nat) (h : ∀ v ∈ raw, v < 256) :
    0 ≤ SetBytes raw ∧ SetBytes raw < 256 ^ raw.length := by
  induction raw with
  | nil => simp [SetBytes]
  | cons v rest ih =>
    have hv : v < 256 := h v (List.mem_cons_self _ _)
    obtain ⟨h0, h1⟩ := ih (fun w hw => h w (List.mem_cons_of_mem _ hw))
    rw [SetBytes_cons, List.length_cons, pow_succ]
    have hp : (0 : Int) < 256 ^ rest.length := by positivity
    have hv' : (v : Int) ≤ 255 := by omega
    constructor
    · positivity
    · nlinarith

/-- Reducing a big-endian number modulo `2^j * M` keeps the low `j` bits of its leading
coefficient. -/
theorem emod_lead (v j : Nat) (M r : Int) (hM : 0 < M) (hr : 0 ≤ r ∧ r < M) :
    ((v : Int) * M + r) % (2 ^ j * M) = ((v % 2 ^ j : Nat) : Int) * M + r := by
  have hj : (0 : Int) < 2 ^ j := by positivity
  have hsplit : (v : Int) = 2 ^ j * ((v / 2 ^ j : Nat) : Int) + ((v % 2 ^ j : Nat) : Int) := by
    have := Nat.div_add_mod v (2 ^ j)
    exact_mod_cast this.symm
  have hlow0 : (0 : Int) ≤ ((v % 2 ^ j : Nat) : Int) := Int.natCast_nonneg _
  have hlow1 : ((v % 2 ^ j : Nat) : Int) + 1 ≤ 2 ^ j := by
    have := Nat.mod_lt v (show 0 < 2 ^ j by positivity)
    exact_mod_cast this
  have heq : (v : Int) * M + r
      = ((v % 2 ^ j : Nat) : Int) * M + r + (2 ^ j * M) * ((v / 2 ^ j : Nat) : Int) := by
    conv_lhs => rw [hsplit]
    ring
  rw [heq, Int.add_mul_emod_self_left]
  apply Int.emod_eq_of_lt
  · have := mul_nonneg hlow0 hM.le
    omega
  · have := mul_le_mul_of_nonneg_right hlow1 hM.le
    linarith [hr.2]

/-! ## Claim C7: `Resolve` -/

/-- C7. For every name and every digest whose output has at least `ceil(B/8)` bytes,
`Resolve(name)` returns the big-endian integer formed by the first `ceil(B/8)` digest
bytes, reduced modulo `2^B` (the high `8*ceil(B/8) - B` bits cleared); the result is in
`[0, 2^B)`, and equal names give equal ids. -/
theorem Resolve_spec (B : Nat) (digest : String → List (Fin 256)) (name : String)
    (hlen : (B + 7) / 8 ≤ (digest name).length) :
    Resolve B digest name
        = some (SetBytes (((digest name).map Fin.val).take ((B + 7) / 8)) % 2 ^ B) ∧
      (∃ r : Int, Resolve B digest name = some r ∧ 0 ≤ r ∧ r < 2 ^ B) ∧
      ∀ name2 : String, name2 = name → Resolve B digest name2 = Resolve B digest name := by
  have hmain : Resolve B digest name
      = some (SetBytes (((digest name).map Fin.val).take ((B + 7) / 8)) % 2 ^ B) := by
    have hlen' : ¬ ((digest name).map Fin.val).length < (B + 7) / 8 := by
      rw [List.length_map]
      omega
    simp only [Resolve, if_neg hlen']
    have hrawlen : (((digest name).map Fin.val).take ((B + 7) / 8)).length = (B + 7) / 8 := by
      rw [List.length_take, List.length_map]
      omega
    have hbytes : ∀ v ∈ ((digest name).map Fin.val).take ((B + 7) / 8), v < 256 := by
      intro v hv
      obtain ⟨w, -, rfl⟩ := List.mem_map.mp (List.mem_of_mem_take hv)
      exact w.isLt
    generalize ((digest name).map Fin.val).take ((B + 7) / 8) = raw at hrawlen hbytes
    cases raw with
    | nil =>
      have hB : B = 0 := by
        simp only [List.length_nil] at hrawlen
        omega
      subst hB
      simp [clearLoop, SetBytes]
    | cons v rest =>
      rw [List.length_cons] at hrawlen
      have hv : v < 256 := hbytes v (List.mem_cons_self _ _)
      have hrest := SetBytes_bounds rest (fun w hw => hbytes w (List.mem_cons_of_mem _ hw))
      have hk : (rest.length + 1) * 8 - B < 8 := by omega
      have hBeq : B = (8 - ((rest.length + 1) * 8 - B)) + 8 * rest.length := by omega
      simp only [List.length_cons, clearLoop_cons]
      rw [clearTop_eq v _ hv hk, SetBytes_cons, SetBytes_cons]
      generalize (rest.length + 1) * 8 - B = k at hk hBeq
      have hpow : (2 : Int) ^ B = 2 ^ (8 - k) * 256 ^ rest.length := by
        conv_lhs => rw [hBeq]
        rw [pow_add, pow_mul]
        norm_num
      rw [hpow, emod_lead v (8 - k) _ _ (by positivity) hrest]
  refine ⟨hmain, ⟨_, hmain, ?_, ?_⟩, fun name2 h => by rw [h]⟩
  · exact Int.emod_nonneg _ (by positivity)
  · exact Int.emod_lt_of_pos _ (by positivity)

theorem Resolve_spec_witness :
    (12 + 7) / 8 ≤ (sampleDigest "iris").length ∧
      Resolve 12 sampleDigest "iris"
        = some (SetBytes (((sampleDigest "iris").map Fin.val).take ((12 + 7) / 8)) % 2 ^ 12) ∧
      (∃ r : Int, Resolve 12 sampleDigest "iris" = some r ∧ 0 ≤ r ∧ r < 2 ^ 12) ∧
      ∀ name2 : String, name2 = "iris" →
        Resolve 12 sampleDigest name2 = Resolve 12 sampleDigest "iris" :=
  ⟨by decide, Resolve_spec 12 sampleDigest "iris" (by decide)⟩

end Pastry

namespace Scribe

/-! ## Claims C8 and C9: the compound heartbeat id -/

theorem Dead_compound (B : Nat) (topic node : Int) (hn : 0 ≤ node ∧ node < 2 ^ B) :
    Dead B (Lsh topic B + node) = (topic, node) := by
  have hp : (0 : Int) < 2 ^ B := by positivity
  have hq : (topic * 2 ^ B + node) / 2 ^ B = topic := by
    rw [Int.add_comm, Int.add_mul_ediv_right _ _ hp.ne', Int.ediv_eq_zero_of_lt hn.1 hn.2]
    simp
  simp only [Dead, Rsh, Lsh, Int.shiftRight_eq_div_pow]
  push_cast
  rw [hq]
  simp

/-- C8. For every topic `>= 0` and every node in `[0, 2^B)`, splitting the compound id
`(topic << B) + node` built by `monitor`, `unmonitor` and `ping` the way `Dead` does gives
back exactly the topic and the node. -/
theorem Dead_roundtrip (B : Nat) (topic node : Int) (_ht : 0 ≤ topic)
    (hn : 0 ≤ node ∧ node < 2 ^ B) :
    Dead B (monitor B topic node) = (topic, node) ∧
      Dead B (unmonitor B topic node) = (topic, node) ∧
      Dead B (ping B topic node) = (topic, node) :=
  ⟨Dead_compound B topic node hn, Dead_compound B topic node hn, Dead_compound B topic node hn⟩

theorem Dead_roundtrip_witness :
    (0 : Int) ≤ 5 ∧ ((0 : Int) ≤ 0x35 ∧ (0x35 : Int) < 2 ^ 8) ∧
      Dead 8 (monitor 8 5 0x35) = (5, 0x35) ∧
      Dead 8 (unmonitor 8 5 0x35) = (5, 0x35) ∧
      Dead 8 (ping 8 5 0x35) = (5, 0x35) :=
  ⟨by decide, by decide, Dead_roundtrip 8 5 0x35 (by decide) (by decide)⟩

/-- C9. For every topic `>= 1` and every node in `[0, 2^B)`, the compound id
`(topic << B) + node` built by `monitor`, `unmonitor` and `ping` is at least `2^B`, so it
differs from the id of every overlay peer, which lies in `[0, 2^B)`. -/
theorem compound_no_collision (B : Nat) (topic node peer : Int) (ht : 1 ≤ topic)
    (hn : 0 ≤ node ∧ node < 2 ^ B) (hpeer : 0 ≤ peer ∧ peer < 2 ^ B) :
    (2 ^ B ≤ monitor B topic node ∧ monitor B topic node ≠ peer) ∧
      (2 ^ B ≤ unmonitor B topic node ∧ unmonitor B topic node ≠ peer) ∧
      (2 ^ B ≤ ping B topic node ∧ ping B topic node ≠ peer) := by
  have hp : (0 : Int) < 2 ^ B := by positivity
  have h : (2 : Int) ^ B ≤ topic * 2 ^ B + node := by
    have := mul_le_mul_of_nonneg_right ht hp.le
    linarith [hn.1]
  have h2 : topic * 2 ^ B + node ≠ peer := fun e => by linarith [hpeer.2]
  exact ⟨⟨h, h2⟩, ⟨h, h2⟩, ⟨h, h2⟩⟩

theorem compound_no_collision_witness :
    (1 : Int) ≤ 1 ∧ ((0 : Int) ≤ 0 ∧ (0 : Int) < 2 ^ 8) ∧
      ((0 : Int) ≤ 255 ∧ (255 : Int) < 2 ^ 8) ∧
      ((2 ^ 8 ≤ monitor 8 1 0 ∧ monitor 8 1 0 ≠ 255) ∧
      (2 ^ 8 ≤ unmonitor 8 1 0 ∧ unmonitor 8 1 0 ≠ 255) ∧
      (2 ^ 8 ≤ ping 8 1 0 ∧ ping 8 1 0 ≠ 255)) :=
  ⟨by decide, by decide, by decide,
    compound_no_collision 8 1 0 255 (by decide) (by decide) (by decide)⟩

end Scribe

namespace Pastry

/-! ## Claim C10: the order of `idSlice` around its origin -/

/-- For a fixed origin, `delta` is injective on `[0, 2^B)`. -/
theorem delta_injective (B : Nat) (o x y : Int) (ho : 0 ≤ o ∧ o < 2 ^ B)
    (hx : 0 ≤ x ∧ x < 2 ^ B) (hy : 0 ≤ y ∧ y < 2 ^ B)
    (h : delta B o x = delta B o y) : x = y := by
  cases B with
  | zero =>
    simp only [pow_zero] at hx hy
    omega
  | succ k =>
    rw [delta_succ, delta_succ] at h
    have hp : (0 : Int) < 2 ^ k := by positivity
    have hm : (2 : Int) ^ (k + 1) = 2 * 2 ^ k := by ring
    rw [hm] at ho hx hy
    generalize (2 : Int) ^ k = m at hp ho hx hy h
    split_ifs at h <;> omega

theorem Less_eq (B : Nat) (p : idSlice) (i j : Nat) (x y : Int)
    (hi : p.data[i]? = some x) (hj : p.data[j]? = some y) :
    p.Less B i j = some (decide (delta B p.origin x < delta B p.origin y)) := by
  simp only [idSlice.Less, hi, hj]

theorem Less_true_iff (B : Nat) (p : idSlice) (i j : Nat) :
    p.Less B i j = some true ↔
      ∃ x y, p.data[i]? = some x ∧ p.data[j]? = some y ∧
        delta B p.origin x < delta B p.origin y := by
  constructor
  · intro h
    cases hi : p.data[i]? with
    | none => simp [idSlice.Less, hi] at h
    | some x =>
      cases hj : p.data[j]? with
      | none => simp [idSlice.Less, hi, hj] at h
      | some y =>
        rw [Less_eq B p i j x y hi hj] at h
        exact ⟨x, y, rfl, rfl, of_decide_eq_true (Option.some.inj h)⟩
  · rintro ⟨x, y, hi, hj, hlt⟩
    rw [Less_eq B p i j x y hi hj, decide_eq_true hlt]

/-- C10. For an origin `o` in `[0, 2^B)` and a slice of ids in `[0, 2^B)`, `Less(i, j)`
returns (for indices inside the slice) exactly whether `delta(o, ids[i]) < delta(o, ids[j])`,
and this is a strict total order around `o`: it is irreflexive and transitive, and for two
entries with `ids[i] != ids[j]` exactly one of `Less(i, j)` and `Less(j, i)` holds, because
`delta(o, .)` is injective on the id space. -/
theorem Less_spec (B : Nat) (p : idSlice) (ho : 0 ≤ p.origin ∧ p.origin < 2 ^ B)
    (hd : ∀ x ∈ p.data, 0 ≤ x ∧ x < 2 ^ B) :
    (∀ i j, i < p.Len → j < p.Len → ∃ x y, p.data[i]? = some x ∧ p.data[j]? = some y ∧
        p.Less B i j = some (decide (delta B p.origin x < delta B p.origin y))) ∧
      (∀ i, i < p.Len → p.Less B i i = some false) ∧
      (∀ i j k, p.Less B i j = some true → p.Less B j k = some true →
        p.Less B i k = some true) ∧
      (∀ i j x y, p.data[i]? = some x → p.data[j]? = some y → x ≠ y →
        (p.Less B i j = some true ∧ p.Less B j i = some false) ∨
        (p.Less B i j = some false ∧ p.Less B j i = some true)) ∧
      (∀ x y, (0 ≤ x ∧ x < 2 ^ B) → (0 ≤ y ∧ y < 2 ^ B) →
        delta B p.origin x = delta B p.origin y → x = y) := by
  have hget : ∀ i, i < p.Len → ∃ x, p.data[i]? = some x := by
    intro i hi
    exact ⟨p.data[i], List.getElem?_eq_getElem hi⟩
  refine ⟨?_, ?_, ?_, ?_, ?_⟩
  · intro i j hi hj
    obtain ⟨x, hx⟩ := hget i hi
    obtain ⟨y, hy⟩ := hget j hj
    exact ⟨x, y, hx, hy, Less_eq B p i j x y hx hy⟩
  · intro i hi
    obtain ⟨x, hx⟩ := hget i hi
    rw [Less_eq B p i i x x hx hx, decide_eq_false (lt_irrefl _)]
  · intro i j k hij hjk
    obtain ⟨x, y, hx, hy, hxy⟩ := (Less_true_iff B p i j).mp hij
    obtain ⟨y2, z, hy2, hz, hyz⟩ := (Less_true_iff B p j k).mp hjk
    obtain rfl : y = y2 := Option.some.inj (hy.symm.trans hy2)
    exact (Less_true_iff B p i k).mpr ⟨x, z, hx, hz, lt_trans hxy hyz⟩
  · intro i j x y hx hy hne
    have hxr := hd x (List.getElem?_mem hx)
    have hyr := hd y (List.getElem?_mem hy)
    have hdne : delta B p.origin x ≠ delta B p.origin y :=
      fun h => hne (delta_injective B p.origin x y ho hxr hyr h)
    rw [Less_eq B p i j x y hx hy, Less_eq B p j i y x hy hx]
    rcases lt_or_gt_of_ne hdne with h | h
    · left
      rw [decide_eq_true h, decide_eq_false (not_lt.mpr h.le)]
      exact ⟨rfl, rfl⟩
    · right
      rw [decide_eq_true h, decide_eq_false (not_lt.mpr (le_of_lt h))]
      exact ⟨rfl, rfl⟩
  · intro x y hx hy h
    exact delta_injective B p.origin x y ho hx hy h

theorem Less_spec_witness :
    ((0 : Int) ≤ 0x10 ∧ (0x10 : Int) < 2 ^ 8) ∧
      (∀ x ∈ [(0x80 : Int), 0xF0, 0x12], 0 ≤ x ∧ x < 2 ^ 8) ∧
      (idSlice.mk 0x10 [0x80, 0xF0, 0x12]).Less 8 1 2 = some true ∧
      (idSlice.mk 0x10 [0x80, 0xF0, 0x12]).Less 8 2 0 = some true ∧
      (idSlice.mk 0x10 [0x80, 0xF0, 0x12]).Less 8 1 0 = some true :=
  ⟨by decide, by decide, by decide, by decide,
    (Less_spec 8 (idSlice.mk 0x10 [0x80, 0xF0, 0x12]) (by decide) (by decide)).2.2.1 1 2 0
      (by decide) (by decide)⟩

end Pastry

namespace Pastry

/-! ## Claim C13: `Distance` is a metric on the ring -/

/-- The four shapes of `Distance(a, b)` on ids of `k + 1` bits: the plain difference in
either direction, or the way around the ring. -/
theorem Distance_cases (k : Nat) (a b : Int)
    (ha : 0 ≤ a ∧ a < 2 * 2 ^ k) (hb : 0 ≤ b ∧ b < 2 * 2 ^ k) :
    (0 ≤ b - a ∧ b - a ≤ 2 ^ k ∧ Distance (k + 1) a b = b - a) ∨
      (b - a < 0 ∧ -(2 : Int) ^ k ≤ b - a ∧ Distance (k + 1) a b = a - b) ∨
      ((2 : Int) ^ k < b - a ∧ Distance (k + 1) a b = 2 * 2 ^ k - (b - a)) ∨
      (b - a < -(2 : Int) ^ k ∧ Distance (k + 1) a b = b - a + 2 * 2 ^ k) := by
  unfold Distance
  rw [delta_succ]
  have hp : (0 : Int) < 2 ^ k := by positivity
  generalize (2 : Int) ^ k = m at hp ha hb ⊢
  split_ifs with h1 h2
  · rcases abs_cases (b - a - 2 * m) with ⟨e, _⟩ | ⟨e, _⟩ <;> rw [e] <;> omega
  · rcases abs_cases (b - a + 2 * m) with ⟨e, _⟩ | ⟨e, _⟩ <;> rw [e] <;> omega
  · rcases abs_cases (b - a) with ⟨e, _⟩ | ⟨e, _⟩ <;> rw [e] <;> omega

/-- C13. `Distance` is a metric on the ring: for ids `a`, `b`, `c` in `[0, 2^B)`,
`0 <= Distance(a, b) <= 2^(B-1)`, `Distance(a, b) = 0` exactly when `a = b`, and
`Distance(a, c) <= Distance(a, b) + Distance(b, c)`. -/
theorem Distance_metric (B : Nat) (a b c : Int)
    (ha : 0 ≤ a ∧ a < 2 ^ B) (hb : 0 ≤ b ∧ b < 2 ^ B) (hc : 0 ≤ c ∧ c < 2 ^ B) :
    (0 ≤ Distance B a b ∧ Distance B a b ≤ 2 ^ (B - 1)) ∧
      (Distance B a b = 0 ↔ a = b) ∧
      Distance B a c ≤ Distance B a b + Distance B b c := by
  cases B with
  | zero =>
    simp only [pow_zero] at ha hb hc
    obtain rfl : a = 0 := by omega
    obtain rfl : b = 0 := by omega
    obtain rfl : c = 0 := by omega
    decide
  | succ k =>
    have hm : (2 : Int) ^ (k + 1) = 2 * 2 ^ k := by ring
    rw [hm] at ha hb hc
    have hab := Distance_cases k a b ha hb
    have hbc := Distance_cases k b c hb hc
    have hac := Distance_cases k a c ha hc
    have hp : (0 : Int) < 2 ^ k := by positivity
    simp only [Nat.add_sub_cancel]
    generalize Distance (k + 1) a b = dab at hab ⊢
    generalize Distance (k + 1) b c = dbc at hbc ⊢
    generalize Distance (k + 1) a c = dac at hac ⊢
    generalize (2 : Int) ^ k = m at hp ha hb hc hab hbc hac ⊢
    refine ⟨⟨by omega, by omega⟩, ⟨fun h => by omega, fun h => by omega⟩, by omega⟩

theorem Distance_metric_witness :
    ((0 : Int) ≤ 0x10 ∧ (0x10 : Int) < 2 ^ 8) ∧ ((0 : Int) ≤ 0x80 ∧ (0x80 : Int) < 2 ^ 8) ∧
      ((0 : Int) ≤ 0xF0 ∧ (0xF0 : Int) < 2 ^ 8) ∧
      ((0 ≤ Distance 8 0x10 0x80 ∧ Distance 8 0x10 0x80 ≤ 2 ^ (8 - 1)) ∧
      (Distance 8 0x10 0x80 = 0 ↔ (0x10 : Int) = 0x80) ∧
      Distance 8 0x10 0xF0 ≤ Distance 8 0x10 0x80 + Distance 8 0x80 0xF0) :=
  ⟨by decide, by decide, by decide,
    Distance_metric 8 0x10 0x80 0xF0 (by decide) (by decide) (by decide)⟩

end Pastry

namespace Scribe

/-! ## Claim C12: the load reports assembled by `Overlay.Beat` -/

theorem addReport_keys (reps : Reports) (id self cap : Int) :
    (addReport reps id self cap).map Prod.fst =
      if id ∈ reps.map Prod.fst then reps.map Prod.fst else reps.map Prod.fst ++ [id] := by
  induction reps with
  | nil => simp [addReport]
  | cons e rest ih =>
    obtain ⟨k, r⟩ := e
    unfold addReport
    by_cases hk : k = id
    · subst hk
      simp
    · have hk2 : ¬ id = k := fun h => hk h.symm
      simp only [if_neg hk, List.map_cons, ih, List.mem_cons, hk2, false_or]
      split_ifs <;> simp

theorem addReport_mem (reps : Reports) (id self cap : Int)
    (hnd : (reps.map Prod.fst).Nodup) (k : Int) (r : report)
    (h : (k, r) ∈ addReport reps id self cap) :
    (k ≠ id ∧ (k, r) ∈ reps) ∨
      (k = id ∧ ((∃ r0, (id, r0) ∈ reps ∧ r = ⟨r0.Tops ++ [self], r0.Caps ++ [cap]⟩) ∨
        (id ∉ reps.map Prod.fst ∧ r = ⟨[self], [cap]⟩))) := by
  induction reps with
  | nil =>
    simp only [addReport, List.mem_singleton, Prod.mk.injEq] at h
    exact Or.inr ⟨h.1, Or.inr ⟨by simp, h.2⟩⟩
  | cons e rest ih =>
    obtain ⟨k0, r0⟩ := e
    rw [List.map_cons, List.nodup_cons] at hnd
    unfold addReport at h
    by_cases hk : k0 = id
    · subst hk
      rw [if_pos rfl, List.mem_cons] at h
      rcases h with h | h
      · simp only [Prod.mk.injEq] at h
        exact Or.inr ⟨h.1, Or.inl ⟨r0, List.mem_cons_self _ _, h.2⟩⟩
      · have hne : k ≠ k0 := by
          intro e
          subst e
          exact hnd.1 (List.mem_map.mpr ⟨(k, r), h, rfl⟩)
        exact Or.inl ⟨hne, List.mem_cons_of_mem _ h⟩
    · rw [if_neg hk, List.mem_cons] at h
      rcases h with h | h
      · simp only [Prod.mk.injEq] at h
        obtain ⟨rfl, rfl⟩ := h
        exact Or.inl ⟨hk, List.mem_cons_self _ _⟩
      · rcases ih hnd.2 h with ⟨h1, h2⟩ | ⟨h1, h2 | h2⟩
        · exact Or.inl ⟨h1, List.mem_cons_of_mem _ h2⟩
        · obtain ⟨r1, hr1, hr⟩ := h2
          exact Or.inr ⟨h1, Or.inl ⟨r1, List.mem_cons_of_mem _ hr1, hr⟩⟩
        · refine Or.inr ⟨h1, Or.inr ⟨?_, h2.2⟩⟩
          simp only [List.map_cons, List.mem_cons, not_or]
          exact ⟨fun e => hk e.symm, h2.1⟩

/-- One iteration of the inner loop keeps the invariant, with the new pair added to the
pairs of its destination. -/
theorem ReportsInv_addReport (reps : Reports) (acc : Int → List (Int × Int))
    (id self cap : Int) (h : ReportsInv reps acc) :
    ReportsInv (addReport reps id self cap)
      (fun k => if k = id then acc k ++ [(self, cap)] else acc k) := by
  obtain ⟨hnd, hkeys, hrep⟩ := h
  refine ⟨?_, ?_, ?_⟩
  · rw [addReport_keys]
    split_ifs with hin
    · exact hnd
    · rw [List.nodup_append]
      refine ⟨hnd, List.nodup_singleton _, ?_⟩
      intro x hx hx2
      rw [List.mem_singleton] at hx2
      subst hx2
      exact hin hx
  · intro k
    rw [addReport_keys]
    by_cases hk : k = id
    · subst hk
      simp only [if_true]
      constructor
      · intro _
        simp
      · intro _
        split_ifs with hin
        · exact hin
        · simp
    · simp only [if_neg hk]
      rw [← hkeys k]
      split_ifs with hin
      · rfl
      · simp [hk]
  · intro k r hmem
    rcases addReport_mem reps id self cap hnd k r hmem with ⟨h1, h2⟩ | ⟨h1, h2 | h2⟩
    · simp only [if_neg h1]
      exact hrep k r h2
    · subst h1
      obtain ⟨r0, hr0, rfl⟩ := h2
      obtain ⟨ht, hc⟩ := hrep k r0 hr0
      simp [ht, hc]
    · subst h1
      obtain ⟨hnot, rfl⟩ := h2
      have hacc : acc k = [] := by
        by_contra hne
        exact hnot ((hkeys k).mpr hne)
      simp [hacc]

theorem ReportsInv_congr (reps : Reports) (acc acc2 : Int → List (Int × Int))
    (h : ReportsInv reps acc) (heq : ∀ k, acc k = acc2 k) : ReportsInv reps acc2 := by
  obtain rfl : acc = acc2 := funext heq
  exact h

/-- The inner loop on lists of equal length does not panic and keeps the invariant, with the
pairs of the topic added. -/
theorem ReportsInv_rangeIds (self : Int) (ids caps : List Int)
    (hlen : ids.length = caps.length) (reps : Reports) (acc : Int → List (Int × Int))
    (h : ReportsInv reps acc) :
    ∃ reps2, rangeIds self ids caps reps = some reps2 ∧
      ReportsInv reps2 (fun k => acc k ++ pairsOf self ids caps k) := by
  induction ids generalizing caps reps acc with
  | nil =>
    refine ⟨reps, by simp [rangeIds], ReportsInv_congr reps acc _ h (fun k => ?_)⟩
    simp [pairsOf]
  | cons id ids ih =>
    cases caps with
    | nil => simp at hlen
    | cons cap caps =>
      simp only [List.length_cons, Nat.add_right_cancel_iff] at hlen
      obtain ⟨reps2, hrun, hinv⟩ := ih caps hlen _ _ (ReportsInv_addReport reps acc id self cap h)
      refine ⟨reps2, by simpa [rangeIds] using hrun, ReportsInv_congr reps2 _ _ hinv (fun k => ?_)⟩
      by_cases hk : k = id
      · subst hk
        simp [pairsOf]
      · have hk2 : ¬ id = k := fun e => hk e.symm
        simp [pairsOf, hk, hk2]

/-- The outer loop on topics with reports of equal length does not panic and keeps the
invariant, with the pairs of all the topics added. -/
theorem ReportsInv_collect (topics : List Topic)
    (hlen : ∀ top ∈ topics, top.ids.length = top.caps.length) (reps : Reports)
    (acc : Int → List (Int × Int)) (h : ReportsInv reps acc) :
    ∃ reps2, collect topics reps = some reps2 ∧
      ReportsInv reps2 (fun k => acc k ++ pairsFor topics k) := by
  induction topics generalizing reps acc with
  | nil =>
    refine ⟨reps, rfl, ReportsInv_congr reps acc _ h (fun k => ?_)⟩
    simp [pairsFor]
  | cons top tops ih =>
    obtain ⟨reps1, hrun1, hinv1⟩ := ReportsInv_rangeIds top.self top.ids top.caps
      (hlen top (List.mem_cons_self _ _)) reps acc h
    obtain ⟨reps2, hrun2, hinv2⟩ := ih (fun t ht => hlen t (List.mem_cons_of_mem _ ht)) reps1 _ hinv1
    refine ⟨reps2, by simp only [collect, hrun1, hrun2], ReportsInv_congr reps2 _ _ hinv2 (fun k => ?_)⟩
    simp [pairsFor, List.append_assoc]

theorem pairsOf_ne_nil (self : Int) (ids caps : List Int) (hlen : ids.length = caps.length)
    (dest : Int) : pairsOf self ids caps dest ≠ [] ↔ dest ∈ ids := by
  induction ids generalizing caps with
  | nil => simp [pairsOf]
  | cons id ids ih =>
    cases caps with
    | nil => simp at hlen
    | cons cap caps =>
      simp only [List.length_cons, Nat.add_right_cancel_iff] at hlen
      unfold pairsOf
      by_cases hk : id = dest
      · subst hk
        simp
      · have hk2 : ¬ dest = id := fun e => hk e.symm
        simp only [if_neg hk, ih caps hlen, List.mem_cons, hk2, false_or]

theorem pairsFor_ne_nil (topics : List Topic)
    (hlen : ∀ top ∈ topics, top.ids.length = top.caps.length) (dest : Int) :
    pairsFor topics dest ≠ [] ↔ ∃ top ∈ topics, dest ∈ top.ids := by
  induction topics with
  | nil => simp [pairsFor]
  | cons top tops ih =>
    have h1 := pairsOf_ne_nil top.self top.ids top.caps (hlen top (List.mem_cons_self _ _)) dest
    have h2 := ih (fun t ht => hlen t (List.mem_cons_of_mem _ ht))
    simp only [pairsFor, ne_eq, List.append_eq_nil, not_and_or, List.mem_cons,
      exists_eq_or_imp]
    exact or_congr h1 h2

theorem zip_fst_snd (l : List (Int × Int)) :
    (l.map Prod.fst).zip (l.map Prod.snd) = l := by
  induction l with
  | nil => rfl
  | cons e rest ih => simp [ih]

/-- C12. For topics whose `GenerateReports` return an id list and a capacity list of equal
length, `Beat` assembles exactly one load report per distinct destination id that occurs in
a topic's id list; in every report `Tops` and `Caps` have the same length, and the pairs
`(Tops[k], Caps[k])` are exactly the pairs `(topic.Self(), caps[i])` of the topics that list
that destination at index `i`. -/
theorem Beat_reports (topics : List Topic)
    (hlen : ∀ top ∈ topics, top.ids.length = top.caps.length) :
    ∃ out, Beat topics = some out ∧
      (out.reports.map Prod.fst).Nodup ∧
      (∀ dest, dest ∈ out.reports.map Prod.fst ↔ ∃ top ∈ topics, dest ∈ top.ids) ∧
      ∀ dest rep, (dest, rep) ∈ out.reports →
        rep.Tops.length = rep.Caps.length ∧
        rep.Tops.zip rep.Caps = pairsFor topics dest := by
  have h0 : ReportsInv [] (fun _ => []) := by
    refine ⟨by simp, by simp, by simp⟩
  obtain ⟨reps, hrun, hnd, hkeys, hrep⟩ := ReportsInv_collect topics hlen [] _ h0
  have hbeat : Beat topics = some ⟨reps,
      (topics.filter (fun top => top.parent.isNone)).map (fun top => top.self)⟩ := by
    simp only [Beat, hrun]
  refine ⟨_, hbeat, hnd, ?_, ?_⟩
  · intro dest
    have hk := hkeys dest
    simp only [List.nil_append] at hk
    exact hk.trans (pairsFor_ne_nil topics hlen dest)
  · intro dest rep hmem
    obtain ⟨ht, hc⟩ := hrep dest rep hmem
    simp only [List.nil_append] at ht hc
    rw [ht, hc]
    exact ⟨by simp, zip_fst_snd _⟩

theorem Beat_reports_witness :
    (∀ top ∈ [Topic.mk 7 [1, 2] [10, 20] none, Topic.mk 8 [2] [30] (some 1)],
        top.ids.length = top.caps.length) ∧
      ∃ out, Beat [Topic.mk 7 [1, 2] [10, 20] none, Topic.mk 8 [2] [30] (some 1)] = some out ∧
        (out.reports.map Prod.fst).Nodup ∧
        (∀ dest, dest ∈ out.reports.map Prod.fst ↔
          ∃ top ∈ [Topic.mk 7 [1, 2] [10, 20] none, Topic.mk 8 [2] [30] (some 1)],
            dest ∈ top.ids) ∧
        ∀ dest rep, (dest, rep) ∈ out.reports →
          rep.Tops.length = rep.Caps.length ∧
          rep.Tops.zip rep.Caps
            = pairsFor [Topic.mk 7 [1, 2] [10, 20] none, Topic.mk 8 [2] [30] (some 1)] dest :=
  ⟨by decide,
    Beat_reports [Topic.mk 7 [1, 2] [10, 20] none, Topic.mk 8 [2] [30] (some 1)] (by decide)⟩

end Scribe

namespace Pastry

/-! ## Claim C11: the header built by `sendState` -/

theorem addLive_apply (o : Overlay) (m : IdMap (List String)) (id k : Int) :
    addLive o m id k =
      if k = id then (match o.livePeers k with
        | some node => some node.addrs
        | none => m k) else m k := by
  unfold addLive
  by_cases hk : k = id
  · subst hk
    cases o.livePeers k <;> simp [IdMap.set]
  · cases o.livePeers id <;> simp [IdMap.set, hk]

/-- The loop over the leaves: an id of the list that is live is mapped to the addresses of
its live peer, every other key keeps its entry. -/
theorem foldl_addLive (o : Overlay) (ids : List Int) (m : IdMap (List String)) (k : Int) :
    ids.foldl (addLive o) m k =
      if k ∈ ids then (match o.livePeers k with
        | some node => some node.addrs
        | none => m k) else m k := by
  induction ids generalizing m with
  | nil => simp
  | cons id rest ih =>
    rw [List.foldl_cons, ih, addLive_apply]
    by_cases h1 : k = id
    · subst h1
      cases o.livePeers k <;> simp
    · by_cases h2 : k ∈ rest
      · simp [h1, h2]
      · simp [h1, h2]

/-- The loop over a routing row: the same, for the ids in the cells of the row. -/
theorem foldl_addCell (o : Overlay) (row : List (Option Int)) (m : IdMap (List String))
    (k : Int) :
    row.foldl (addCell o) m k =
      if some k ∈ row then (match o.livePeers k with
        | some node => some node.addrs
        | none => m k) else m k := by
  induction row generalizing m with
  | nil => simp
  | cons cell rest ih =>
    rw [List.foldl_cons, ih]
    cases cell with
    | none =>
      simp [addCell]
    | some id =>
      simp only [addCell, addLive_apply, List.mem_cons, Option.some.injEq]
      by_cases h1 : k = id
      · subst h1
        cases o.livePeers k <;> simp
      · by_cases h2 : some k ∈ rest
        · simp [h1, h2]
        · simp [h1, h2]

/-- The digit loop does not panic when the digit that it reads starts at a bit index that
is not negative, whatever the id and the word width. -/
theorem digitLoop_isSome (W B b p : Nat) (y : Int) (hp : (p + 1) * b ≤ B) (k : Nat) :
    ∃ d, digitLoop W B b p y k = some d := by
  induction k with
  | zero => exact ⟨0, rfl⟩
  | succ k ih =>
    obtain ⟨d, hd⟩ := ih
    have hidx : ¬ ((B : Int) - ((p : Int) + 1) * (b : Int) + (k : Int) < 0) := by
      have h : (((p + 1) * b : Nat) : Int) ≤ (B : Int) := by exact_mod_cast hp
      push_cast at h
      omega
    simp only [digitLoop, hd, if_neg hidx]
    exact ⟨_, rfl⟩

/-- For `B >= 1` and a digit width `b >= 1` that divides `B`, the digit scan returns on every
pair of ids, and the length it returns is the index of one of the `B / b` routing rows (on
an id and itself it is `0`). -/
theorem prefixOf_row (W B b : Nat) (x y : Int) (hb : 1 ≤ b) (hdvd : b ∣ B) (hB : 1 ≤ B) :
    ∃ (p : Nat) (d : Int), prefixOf W B b x y = some ((p : Int), d) ∧ p < B / b := by
  have hbB : b ≤ B := Nat.le_of_dvd hB hdvd
  have hb0 : b ≠ 0 := by omega
  have hbpos : 0 < b := hb
  cases hfd : firstDiff x y B with
  | none =>
    obtain ⟨d, hd⟩ := digitLoop_isSome W B b 0 y (by omega) b
    exact ⟨0, toInt W d, by simp only [prefixOf, hfd, hd, Nat.cast_zero], Nat.div_pos hbB hb⟩
  | some bit =>
    obtain ⟨hbit, -, -⟩ := firstDiff_some _ _ _ _ hfd
    obtain ⟨D, rfl⟩ := hdvd
    have hq3 : (b * D - 1 - bit) / b < D := by
      rw [Nat.div_lt_iff_lt_mul hbpos, Nat.mul_comm D b]
      omega
    have hq4 : ((b * D - 1 - bit) / b + 1) * b ≤ b * D := by
      have h := Nat.mul_le_mul_right b (Nat.succ_le_of_lt hq3)
      rw [Nat.mul_comm D b] at h
      exact h
    obtain ⟨d, hd⟩ := digitLoop_isSome W (b * D) b ((b * D - 1 - bit) / b) y hq4 b
    refine ⟨(b * D - 1 - bit) / b, toInt W d, ?_, ?_⟩
    · simp only [prefixOf, hfd, if_neg hb0, hd]
    · rw [Nat.mul_div_cancel_left D hbpos]
      exact hq3

/-- The address map that `sendState` builds, key by key: a key that occurs in the leaf set
or in the row and is live is mapped to the addresses of its live peer; any other key is
mapped to the local addresses if it is the local id, and is absent otherwise. -/
theorem sendState_addrs (o : Overlay) (row : List (Option Int)) (k : Int) :
    row.foldl (addCell o)
        (o.routes.leaves.foldl (addLive o) (IdMap.set (fun _ => none) o.nodeId o.addrs)) k =
      match (if k ∈ o.routes.leaves ∨ some k ∈ row then o.livePeers k else none) with
      | some node => some node.addrs
      | none => if k = o.nodeId then some o.addrs else none := by
  rw [foldl_addCell, foldl_addLive]
  by_cases h1 : k ∈ o.routes.leaves <;> by_cases h2 : some k ∈ row <;>
    cases hl : o.livePeers k <;> simp [h1, h2, IdMap.set]

/-- C11. For every overlay state of the data model (the registry `livePeers` holds remote
peers only, so it has no entry under the local id `L`; the routing table has `D = B / b`
rows, with `B >= 1` and a digit width `b >= 1` that divides `B`) and every destination peer,
`sendState` builds a header with `Op` the exchange opcode, `Dest` the id of the recipient
and `State.Version` the current version of the table; `State.Addrs` maps `L` to the sender's
own addresses, and otherwise contains exactly the ids that occur in the leaf set or in the
routing row of index `prefix(L, dest).p` and are present in `livePeers`, each mapped to the
addresses of that live peer; no id outside `L` and `livePeers` is advertised. -/
theorem sendState_spec (W B b : Nat) (o : Overlay) (dest : peer)
    (hb : 1 ≤ b) (hdvd : b ∣ B) (hB : 1 ≤ B)
    (hrows : o.routes.routes.length = B / b) (hself : o.livePeers o.nodeId = none) :
    ∃ (idx : Nat) (d : Int) (row : List (Option Int)) (s : state),
      prefixOf W B b o.nodeId dest.nodeId = some ((idx : Int), d) ∧
      o.routes.routes[idx]? = some row ∧
      sendState W B b o dest = some ⟨opcode.opExchage, dest.nodeId, some s⟩ ∧
      s.Version = o.time ∧
      s.Addrs o.nodeId = some o.addrs ∧
      (∀ k v, k ≠ o.nodeId → (s.Addrs k = some v ↔
        (k ∈ o.routes.leaves ∨ some k ∈ row) ∧
          ∃ node, o.livePeers k = some node ∧ v = node.addrs)) ∧
      (∀ k v, s.Addrs k = some v → k = o.nodeId ∨ ∃ node, o.livePeers k = some node) := by
  obtain ⟨p, d, hp, hlt⟩ := prefixOf_row W B b o.nodeId dest.nodeId hb hdvd hB
  have hpr : p < o.routes.routes.length := by omega
  have hrow : o.routes.routes[p]? = some o.routes.routes[p] := List.getElem?_eq_getElem hpr
  generalize o.routes.routes[p] = row at hrow
  have hneg : ¬ ((p : Int) < 0) := by omega
  have hrun : sendState W B b o dest = some ⟨opcode.opExchage, dest.nodeId,
      some ⟨row.foldl (addCell o) (o.routes.leaves.foldl (addLive o)
        (IdMap.set (fun _ => none) o.nodeId o.addrs)), o.time⟩⟩ := by
    simp only [sendState, hp, if_neg hneg, Int.toNat_natCast, hrow]
  refine ⟨p, d, row, _, hp, hrow, hrun, rfl, ?_, ?_, ?_⟩
  · show row.foldl (addCell o) _ o.nodeId = _
    rw [sendState_addrs]
    simp [hself]
  · intro k v hk
    show row.foldl (addCell o) _ k = _ ↔ _
    rw [sendState_addrs]
    by_cases hin : k ∈ o.routes.leaves ∨ some k ∈ row
    · cases hl : o.livePeers k with
      | none => simp [hin, hl, hk]
      | some node =>
        rw [if_pos hin]
        constructor
        · intro h
          exact ⟨hin, node, rfl, (Option.some.inj h).symm⟩
        · rintro ⟨-, node2, hn, rfl⟩
          obtain rfl := Option.some.inj hn
          rfl
    · simp [hin, hk]
  · intro k v h
    by_cases hk : k = o.nodeId
    · exact Or.inl hk
    · right
      have h2 : row.foldl (addCell o) (o.routes.leaves.foldl (addLive o)
          (IdMap.set (fun _ => none) o.nodeId o.addrs)) k = some v := h
      rw [sendState_addrs] at h2
      by_cases hin : k ∈ o.routes.leaves ∨ some k ∈ row
      · cases hl : o.livePeers k with
        | none => simp [hin, hl, hk] at h2
        | some node => exact ⟨node, rfl⟩
      · simp [hin, hk] at h2

theorem sendState_spec_witness :
    1 ≤ 4 ∧ 4 ∣ 8 ∧ 1 ≤ 8 ∧
      sampleOverlay.routes.routes.length = 8 / 4 ∧
      sampleOverlay.livePeers sampleOverlay.nodeId = none ∧
      ∃ (idx : Nat) (d : Int) (row : List (Option Int)) (s : state),
        prefixOf 64 8 4 sampleOverlay.nodeId 0x80 = some ((idx : Int), d) ∧
        sampleOverlay.routes.routes[idx]? = some row ∧
        sendState 64 8 4 sampleOverlay ⟨0x80, ["10.0.0.2:55555"]⟩
          = some ⟨opcode.opExchage, 0x80, some s⟩ ∧
        s.Version = sampleOverlay.time ∧
        s.Addrs sampleOverlay.nodeId = some sampleOverlay.addrs ∧
        (∀ k v, k ≠ sampleOverlay.nodeId → (s.Addrs k = some v ↔
          (k ∈ sampleOverlay.routes.leaves ∨ some k ∈ row) ∧
            ∃ node, sampleOverlay.livePeers k = some node ∧ v = node.addrs)) ∧
        (∀ k v, s.Addrs k = some v →
          k = sampleOverlay.nodeId ∨ ∃ node, sampleOverlay.livePeers k = some node) :=
  ⟨by decide, by decide, by decide, by decide, rfl,
    sendState_spec 64 8 4 sampleOverlay ⟨0x80, ["10.0.0.2:55555"]⟩ (by decide) (by decide)
      (by decide) (by decide) rfl⟩

end Pastry
